import Mathlib

/-!
Shallow embedding of the core of the `raft` repository (Go), covering:
the storage facade (`storage.go` part of `src/log/segment.go`), the
retry backoff (`src/util.go`), the replication catch-up step
(`src/member.go`), the leader state (`src/unnamed/part_001`: `ldrShip`
with `storeEntry`, `applyCommitted`, `majorityMatchIndex`,
`onMajorityCommit`, `changeConfig`), the configuration model
(`Config`/`Node` in `src/unnamed/part_001`) and the leader lease quorum
check (`src/leader.go`).

Go `uint64` values are modelled as `Nat`; the few places where Go's
wrap-around arithmetic matters are noted at the definition.  Channels,
goroutines and the RPC transport are out of scope: each loop body is
embedded as a pure state-transition function, with RPC responses passed
in as arguments.  Deliveries to the FSM goroutine (`fsmApplyCh` /
`fsm.taskCh`) are modelled as an append to a `fsmSent` trace list, and
the sequence of entries processed by the apply loop is recorded in an
`applied` ghost trace.
-/

/-- Entry types, from the repository's `entryNop` (`entryNoop`),
`entryUpdate` (command), `entryRead` (`entryQuery`), `entryBarrier`,
`entryConfig`. -/
inductive entryType where
  | nop
  | update
  | read
  | barrier
  | config
  deriving DecidableEq, Repr

/-- `Node` of the configuration model (`src/unnamed/part_001`). -/
structure NodeM where
  ID : String
  Addr : String
  Voter : Bool
  Promote : Bool
  deriving DecidableEq, Repr

/-- `Config` of the configuration model.  Go's `Nodes map[ID]Node` is
modelled as an association list keyed by the node id. -/
structure ConfigM where
  Nodes : List (String × NodeM)
  Index : Nat
  Term : Nat
  deriving DecidableEq, Repr

/-- A log entry.  `data` (opaque bytes) is irrelevant to every claim
and omitted; the payload of a config entry (which Go keeps as encoded
bytes and round-trips through `Config.encode`/`Config.decode`) is
modelled as the decoded configuration itself. -/
structure entry where
  typ : entryType
  index : Nat
  term : Nat
  cfg : Option ConfigM
  deriving DecidableEq, Repr

instance : Inhabited entry := ⟨⟨.nop, 0, 0, none⟩⟩

/-- The storage facade (`storage` struct in the `raft` package half of
`src/log/segment.go`).  `first = last = 0` encodes "no entries"; the
repository never stores an entry with index zero.  The backing `Log`
interface is modelled by the list of currently stored entries. -/
structure storageS where
  first : Nat
  last : Nat
  log : List entry
  deriving DecidableEq, Repr

namespace storageS

/-- `storage.count`. -/
def count (s : storageS) : Nat :=
  if s.first = 0 then 0 else s.last - s.first + 1

/-- `storage.getEntry`: look up the stored entry with the given index.
Go panics when the index is absent; the model returns a placeholder
carrying the requested index. -/
def getEntry (s : storageS) (i : Nat) : entry :=
  (s.log.find? (fun e => e.index = i)).getD ⟨.nop, i, 0, none⟩

/-- `storage.append`: append the encoded entry to the log and update
`first`/`last`. -/
def append (s : storageS) (e : entry) : storageS :=
  { first := if s.first = 0 then e.index else s.first
    last := e.index
    log := s.log ++ [e] }

/-- `storage.deleteLTE`: drop all entries with index `≤ index`.  The
Go code panics when the store is empty or `index - first + 1` exceeds
`count`; theorems below take those guards as hypotheses. -/
def deleteLTE (s : storageS) (index : Nat) : storageS :=
  if index = s.last then
    { first := 0, last := 0, log := s.log.filter (fun e => index < e.index) }
  else
    { first := index + 1, last := s.last
      log := s.log.filter (fun e => index < e.index) }

/-- `storage.deleteGTE`: drop all entries with index `≥ index`, under
the same panic guards as `deleteLTE`. -/
def deleteGTE (s : storageS) (index : Nat) : storageS :=
  if index = s.first then
    { first := 0, last := 0, log := s.log.filter (fun e => e.index < index) }
  else
    { first := s.first, last := index - 1
      log := s.log.filter (fun e => e.index < index) }

/-- `storage.init`: read `first`/`last` back from the backing log; an
empty log leaves the (zero-initialised) bounds alone. -/
def init (s : storageS) : storageS :=
  match s.log with
  | [] => s
  | e :: rest =>
    { s with first := e.index, last := ((e :: rest).getLast (by simp)).index }

end storageS

-- backOff (src/util.go / src/unnamed/part_000) --------------------------

/-- `time.Millisecond` in nanoseconds, as in Go's `time` package. -/
def Millisecond : Nat := 1000000

/-- `failureWait = 10 * time.Millisecond`. -/
def failureWait : Nat := 10 * Millisecond

/-- `maxFailureScale = 12`. -/
def maxFailureScale : Nat := 12

/-- The `for power > 2 { base *= 2; power-- }` loop of `backOff`. -/
def backOffLoop (base power : Nat) : Nat :=
  if 2 < power then backOffLoop (base * 2) (power - 1) else base
termination_by power
decreasing_by omega

/-- `backOff` (`src/util.go`): exponential backoff, base scaled by the
failure round up to `maxFailureScale`. -/
def backOff (round : Nat) : Nat :=
  backOffLoop failureWait (min round maxFailureScale)

theorem backOffLoop_eq (base power : Nat) :
    backOffLoop base power = base * 2 ^ (power - 2) := by
  induction power using Nat.strong_induction_on generalizing base with
  | _ power ih =>
    rw [backOffLoop]
    by_cases h : 2 < power
    · rw [if_pos h, ih (power - 1) (by omega)]
      have h2 : power - 2 = (power - 1 - 2) + 1 := by omega
      rw [h2, pow_succ]
      ring
    · rw [if_neg h]
      have h2 : power - 2 = 0 := by omega
      simp [h2]

/-- C9: for every failure round `round ≥ 1`, `backOff` equals
10 ms × 2^(min(round-2, 10)): 10 ms for `round ≤ 2`, doubling per
additional failure, capped at 10 ms × 2^10 from `round = 12` on. -/
theorem backOff_formula (round : Nat) (h : 1 ≤ round) :
    backOff round = 10 * Millisecond * 2 ^ (min (round - 2) 10) ∧
    (round ≤ 2 → backOff round = 10 * Millisecond) ∧
    (12 ≤ round → backOff round = 10 * Millisecond * 2 ^ 10) := by
  have key : backOff round = failureWait * 2 ^ (min round maxFailureScale - 2) :=
    backOffLoop_eq _ _
  have hmin : min round maxFailureScale - 2 = min (round - 2) 10 := by
    simp only [maxFailureScale]
    omega
  rw [key, hmin]
  refine ⟨rfl, fun h2 => ?_, fun h12 => ?_⟩
  · have : min (round - 2) 10 = 0 := by omega
    simp [this, failureWait]
  · have : min (round - 2) 10 = 10 := by omega
    rw [this]
    rfl

theorem backOff_formula_witness :
    1 ≤ 3 ∧ backOff 3 = 10 * Millisecond * 2 ^ (min (3 - 2) 10) :=
  ⟨by decide, (backOff_formula 3 (by decide)).1⟩

/-- C8: the storage facade keeps `first = 0 ↔ last = 0` across
`append`, `deleteLTE`, `deleteGTE` and `init`; `count` is `0` exactly
when both bounds are `0` and `last - first + 1` otherwise;
`deleteLTE last` and `deleteGTE first` reset both bounds to `0`; an
append on an empty store sets both bounds to the appended index. -/
theorem storage_bounds_invariant (s : storageS) (e : entry) (i : Nat)
    (hinv : s.first = 0 ↔ s.last = 0)
    (hwf : s.first ≠ 0 → s.first ≤ s.last)
    (he : 0 < e.index) :
    (s.count = 0 ↔ s.first = 0 ∧ s.last = 0) ∧
    (s.first ≠ 0 → s.count = s.last - s.first + 1) ∧
    ((s.append e).first = 0 ↔ (s.append e).last = 0) ∧
    (s.count = 0 → (s.append e).first = e.index ∧ (s.append e).last = e.index) ∧
    (s.count ≠ 0 → i - s.first + 1 ≤ s.count →
      (((s.deleteLTE i).first = 0 ↔ (s.deleteLTE i).last = 0) ∧
        (i = s.last → (s.deleteLTE i).first = 0 ∧ (s.deleteLTE i).last = 0))) ∧
    (s.count ≠ 0 → s.last - i + 1 ≤ s.count →
      (((s.deleteGTE i).first = 0 ↔ (s.deleteGTE i).last = 0) ∧
        (i = s.first → (s.deleteGTE i).first = 0 ∧ (s.deleteGTE i).last = 0))) ∧
    ((∀ x ∈ s.log, 0 < x.index) → ((s.init).first = 0 ↔ (s.init).last = 0)) := by
  refine ⟨?_, ?_, ?_, ?_, ?_, ?_, ?_⟩
  · simp only [storageS.count]
    split <;> rename_i h0
    · simp [h0, hinv.mp h0]
    · constructor
      · intro h
        omega
      · intro h
        exact absurd h.1 h0
  · intro h0
    simp [storageS.count, h0]
  · simp only [storageS.append]
    split <;> rename_i h0
    · omega
    · have := fun h => hinv.mpr h
      omega
  · intro hc
    have h0 : s.first = 0 := by
      by_contra h0
      simp [storageS.count, h0] at hc
    simp [storageS.append, h0]
  · intro hc hn
    have h0 : s.first ≠ 0 := by
      intro h0
      simp [storageS.count, h0] at hc
    have hl : s.last ≠ 0 := fun h => h0 (hinv.mpr h)
    constructor
    · simp only [storageS.deleteLTE]
      split <;> simp_all
    · intro hi
      simp [storageS.deleteLTE, hi]
  · intro hc hn
    have h0 : s.first ≠ 0 := by
      intro h0
      simp [storageS.count, h0] at hc
    have hfl : s.first ≤ s.last := hwf h0
    have hcnt : s.count = s.last - s.first + 1 := by simp [storageS.count, h0]
    constructor
    · simp only [storageS.deleteGTE]
      split <;> rename_i hi
      · simp
      · have hif : s.first < i ∨ i < s.first := by omega
        rcases hif with hif | hif
        · simp only
          omega
        · rw [hcnt] at hn
          omega
    · intro hi
      simp [storageS.deleteGTE, hi]
  · intro hx
    simp only [storageS.init]
    split <;> rename_i heq
    · exact hinv
    · rename_i e0 rest
      have h1 : 0 < e0.index := hx e0 (by rw [heq]; exact List.mem_cons_self _ _)
      have h2 : 0 < ((e0 :: rest).getLast (by simp)).index := by
        apply hx
        rw [heq]
        exact List.getLast_mem _
      simp only
      omega

theorem storage_bounds_invariant_witness :
    (((⟨2, 3, []⟩ : storageS)).deleteLTE 3).first = 0 ∧
      (((⟨2, 3, []⟩ : storageS)).deleteLTE 3).last = 0 :=
  ((storage_bounds_invariant ⟨2, 3, []⟩ ⟨.nop, 4, 1, none⟩ 3 (by decide)
      (by decide) (by decide)).2.2.2.2.1 (by decide) (by decide)).2 rfl

-- Replication worker (src/member.go + storage.fillEntries) --------------

/-- `appendEntriesRequest`. -/
structure appendEntriesRequest where
  term : Nat
  leaderCommitIndex : Nat
  prevLogIndex : Nat
  prevLogTerm : Nat
  entries : List entry
  deriving DecidableEq, Repr

/-- `appendEntriesResponse`. -/
structure appendEntriesResponse where
  term : Nat
  success : Bool
  lastLogIndex : Nat
  deriving DecidableEq, Repr

/-- `storage.fillEntries`: fill `entries` with the stored entries in
`[minIndex, maxIndex]` and set `prevLogIndex`/`prevLogTerm` from the
entry before `minIndex`.  Go computes the slice length as
`maxIndex-minIndex+1` in `uint64`, which is `0` when
`maxIndex = minIndex-1`; `maxIndex + 1 - minIndex` reproduces that on
`Nat` (callers never pass `maxIndex < minIndex - 1`). -/
def storageS.fillEntries (s : storageS) (req : appendEntriesRequest)
    (minIndex maxIndex : Nat) : appendEntriesRequest :=
  let req :=
    if minIndex = 1 then
      { req with prevLogIndex := 0, prevLogTerm := 0 }
    else
      let prevEntry := s.getEntry (minIndex - 1)
      { req with prevLogIndex := prevEntry.index, prevLogTerm := prevEntry.term }
  { req with
    entries := (List.range (maxIndex + 1 - minIndex)).map
      (fun i => s.getEntry (minIndex + i)) }

/-- The body of one iteration of `member.replicate`'s catch-up loop
(`for matchIndex+1 != m.nextIndex { ... }`): send an empty
AppendEntries probe at `prevLogIndex = nextIndex-1`; on success adopt
`matchIndex = prevLogIndex` (and leave the loop); on failure rewind
`nextIndex` to `max(min(nextIndex-1, resp.lastLogIndex+1), 1)`.
Returns the request sent together with the updated
`(nextIndex, matchIndex)`. -/
def catchupStep (st : storageS) (req0 : appendEntriesRequest)
    (nextIndex matchIndex : Nat) (resp : appendEntriesResponse) :
    appendEntriesRequest × Nat × Nat :=
  let req := st.fillEntries req0 nextIndex (nextIndex - 1)
  if resp.success then
    (req, nextIndex, req.prevLogIndex)
  else
    (req, max (min (nextIndex - 1) (resp.lastLogIndex + 1)) 1, matchIndex)

theorem storageS.getEntry_index (s : storageS) (i : Nat) :
    (s.getEntry i).index = i := by
  unfold storageS.getEntry
  cases h : s.log.find? (fun e => e.index = i) with
  | none => rfl
  | some e =>
    have := List.find?_some h
    simpa using this

/-- C5: in the catch-up phase (`matchIndex + 1 ≠ nextIndex`) the worker
sends an AppendEntries request with zero entries and
`prevLogIndex = nextIndex - 1`; on success the new `matchIndex` is that
`prevLogIndex`; on a mismatch failure the new `nextIndex` is
`max(min(nextIndex-1, resp.lastLogIndex+1), 1)`, never dropping
below 1. -/
theorem catchupStep_spec (st : storageS) (req0 : appendEntriesRequest)
    (nextIndex matchIndex : Nat) (resp : appendEntriesResponse)
    (h1 : 1 ≤ nextIndex) (hloop : matchIndex + 1 ≠ nextIndex) :
    (catchupStep st req0 nextIndex matchIndex resp).1.entries = [] ∧
    (catchupStep st req0 nextIndex matchIndex resp).1.prevLogIndex =
      nextIndex - 1 ∧
    (resp.success = true →
      (catchupStep st req0 nextIndex matchIndex resp).2.2 = nextIndex - 1) ∧
    (resp.success = false →
      (catchupStep st req0 nextIndex matchIndex resp).2.1 =
        max (min (nextIndex - 1) (resp.lastLogIndex + 1)) 1 ∧
      1 ≤ (catchupStep st req0 nextIndex matchIndex resp).2.1) := by
  have hrange : nextIndex - 1 + 1 - nextIndex = 0 := by omega
  have hentries :
      (st.fillEntries req0 nextIndex (nextIndex - 1)).entries = [] := by
    simp [storageS.fillEntries, hrange]
  have hprev :
      (st.fillEntries req0 nextIndex (nextIndex - 1)).prevLogIndex =
        nextIndex - 1 := by
    unfold storageS.fillEntries
    by_cases h : nextIndex = 1
    · simp [h]
    · simp [h, storageS.getEntry_index]
  refine ⟨?_, ?_, ?_, ?_⟩
  · simp [catchupStep]
    split <;> simp [hentries]
  · simp [catchupStep]
    split <;> simp [hprev]
  · intro hs
    simp [catchupStep, hs, hprev]
  · intro hs
    refine ⟨?_, ?_⟩ <;> simp [catchupStep, hs, Nat.le_max_right]

theorem catchupStep_spec_witness :
    1 ≤ 5 ∧ (5 : Nat) + 1 ≠ 5 ∧
      (catchupStep ⟨0, 0, []⟩ ⟨1, 0, 0, 0, []⟩ 5 5
          ⟨1, false, 2⟩).2.1 =
        max (min (5 - 1) (2 + 1)) 1 :=
  ⟨by decide, by decide,
    ((catchupStep_spec ⟨0, 0, []⟩ ⟨1, 0, 0, 0, []⟩ 5 5 ⟨1, false, 2⟩
        (by decide) (by decide)).2.2.2 rfl).1⟩

-- Configuration model (src/unnamed/part_001) ----------------------------

/-- `Config.isVoter`. -/
def ConfigM.isVoter (c : ConfigM) (id : String) : Bool :=
  match c.Nodes.lookup id with
  | some n => n.Voter
  | none => false

/-- `Config.numVoters`. -/
def ConfigM.numVoters (c : ConfigM) : Nat :=
  (c.Nodes.map (fun p => p.2)).countP (fun n => n.Voter)

/-- `Config.quorum`. -/
def ConfigM.quorum (c : ConfigM) : Nat :=
  c.numVoters / 2 + 1

/-- Split a `host:port` address at its last colon.  This models the
behaviour of the external `net.SplitHostPort` on the plain
`host:port` strings this repository uses (no colon yields an error,
modelled as `none`). -/
def splitLastColon : List Char → Option (List Char × List Char)
  | [] => none
  | c :: rest =>
    match splitLastColon rest with
    | some (h, p) => some (c :: h, p)
    | none => if c = ':' then some ([], rest) else none

/-- `strconv.Atoi` on the port string, restricted to the unsigned
decimal numerals relevant here: `none` on an empty or non-numeric
string. -/
def parseDigits (cs : List Char) : Option Nat :=
  if cs.isEmpty then none
  else if cs.all (fun c => c.isDigit) then
    some (cs.foldl (fun a c => a * 10 + (c.toNat - 48)) 0)
  else none

/-- `Node.validate`; `some msg` models a non-nil error. -/
def NodeM.validate (n : NodeM) : Option String :=
  if n.ID = "" then some "empty node id"
  else if n.Addr = "" then some "empty address"
  else
    match splitLastColon n.Addr.toList with
    | none => some "invalid address"
    | some (_, sport) =>
      match parseDigits sport with
      | none => some "port must be specified in address"
      | some port => if port ≤ 0 then some "invalid port" else none

/-- The per-node loop of `Config.validate`: node validity, map-key /
`node.ID` agreement, and address uniqueness (`seen` plays the role of
the `addrs` set). -/
def validateNodes : List (String × NodeM) → List String → Option String
  | [], _ => none
  | (id, node) :: rest, seen =>
    match node.validate with
    | some e => some e
    | none =>
      if id ≠ node.ID then some ("id mismatch for " ++ node.ID)
      else if node.Addr ∈ seen then some ("duplicate address " ++ node.Addr)
      else validateNodes rest (node.Addr :: seen)

/-- `Config.validate`: the per-node checks followed by the voter-count
check, which compares `numVoters()` against `1` (and labels the
resulting error "zero voters"). -/
def ConfigM.validate (c : ConfigM) : Option String :=
  match validateNodes c.Nodes [] with
  | some e => some e
  | none => if c.numVoters = 1 then some "zero voters" else none

/-- C10: when the per-node checks pass, `Config.validate` errors with
"zero voters" exactly when the configuration has exactly one voter; any
other voter count — including zero voters — passes validation. -/
theorem validate_voter_count (c : ConfigM)
    (hn : validateNodes c.Nodes [] = none) :
    (c.numVoters = 1 → c.validate = some "zero voters") ∧
    (c.numVoters ≠ 1 → c.validate = none) := by
  constructor <;> intro h1 <;> simp [ConfigM.validate, hn, h1]

theorem validate_voter_count_witness :
    (⟨[("a", ⟨"a", "h:1", true, false⟩)], 1, 1⟩ : ConfigM).validate =
        some "zero voters" ∧
      (⟨[("a", ⟨"a", "h:1", false, false⟩)], 1, 1⟩ : ConfigM).validate =
        none :=
  ⟨(validate_voter_count ⟨[("a", ⟨"a", "h:1", true, false⟩)], 1, 1⟩
        (by decide)).1 (by decide),
    (validate_voter_count ⟨[("a", ⟨"a", "h:1", false, false⟩)], 1, 1⟩
        (by decide)).2 (by decide)⟩

-- Leader state (src/unnamed/part_001: ldrShip) --------------------------

/-- Role states (`Follower`, `Candidate`, `Leader`). -/
inductive RState where
  | Follower
  | Candidate
  | Leader
  deriving DecidableEq, Repr

/-- `Configs`: the committed/latest configuration pair. -/
structure ConfigsM where
  Committed : ConfigM
  Latest : ConfigM
  deriving DecidableEq, Repr

/-- The leader-relevant node state: the `Raft` fields owned by the role
goroutine together with the `ldrShip` fields.  Per-follower
`flr.status.matchIndex` values are kept as an association list keyed by
node id.  `fsmSent` is the trace of entries handed to the FSM
goroutine (`fsm.taskCh` / `fsmApplyCh` sends); `applied` is a ghost
trace of the entries processed by the apply loop (one per
`lastApplied` increment). -/
structure Ldr where
  id : String
  term : Nat
  lastLogIndex : Nat
  lastLogTerm : Nat
  commitIndex : Nat
  lastApplied : Nat
  startIndex : Nat
  state : RState
  leader : Option String
  voter : Bool
  transferInProgress : Bool
  configs : ConfigsM
  flrs : List (String × Nat)
  storage : storageS
  newEntries : List entry
  fsmSent : List entry
  applied : List entry
  deriving DecidableEq, Repr

/-- `l.flrs[id].status.matchIndex` (Go would fault on a missing id; the
model defaults to 0). -/
def flrMatchIndex (l : Ldr) (id : String) : Nat :=
  (l.flrs.lookup id).getD 0

/-- The descending order used by `decrUint64Slice` (`Less(i,j) =
s[i] > s[j]`). -/
def decrLe (a b : Nat) : Prop := b ≤ a

instance : DecidableRel decrLe := fun a b => inferInstanceAs (Decidable (b ≤ a))

instance : IsTotal Nat decrLe := ⟨fun a b => (Nat.le_total b a).imp id id⟩

instance : IsTrans Nat decrLe := ⟨fun _ _ _ h1 h2 => Nat.le_trans h2 h1⟩

/-- The contribution of one voter row of `majorityMatchIndex`'s
`matched` slice: the leader's own `lastLogIndex` for itself, the
follower's `matchIndex` otherwise. -/
def voterMatch (l : Ldr) (n : NodeM) : Nat :=
  if n.ID = l.id then l.lastLogIndex else flrMatchIndex l n.ID

/-- The voters of the latest configuration, in node-list order. -/
def latestVoters (l : Ldr) : List NodeM :=
  (l.configs.Latest.Nodes.map (fun p => p.2)).filter (fun n => n.Voter)

/-- `ldrShip.majorityMatchIndex`: gather `matchIndex` (or own
`lastLogIndex`) of every voter of the latest config, sort in
decreasing order, and take the `quorum`-th element, where
`quorum = voters/2 + 1`.  Go leaves `matched[0] = 0` when there are no
voters; `getD _ 0` reproduces that. -/
def majorityMatchIndex (l : Ldr) : Nat :=
  let matched := (latestVoters l).map (voterMatch l)
  let sorted := matched.insertionSort decrLe
  sorted.getD (matched.length / 2 + 1 - 1) 0

/-- `Raft.setCommitIndex` (src/unnamed/part_001): store the new commit
index; if an uncommitted latest config is now covered, commit it, and
step down when the leader is no longer a voter of it. -/
def setCommitIndex (r : Ldr) (index : Nat) : Ldr :=
  let r := { r with commitIndex := index }
  if r.configs.Latest.Index ≠ r.configs.Committed.Index ∧
      r.configs.Latest.Index ≤ r.commitIndex then
    let r := { r with configs := { r.configs with Committed := r.configs.Latest } }
    if r.state = .Leader ∧ ¬r.configs.Latest.isVoter r.id then
      { r with state := .Follower, leader := none }
    else r
  else r

/-- `applyEntry`, following the entry-type switch in `applyCommitted`
of `src/fsm.go` (the inline form of this version's apply step): config
entries commit the latest config (and demote a leader that lost its
vote); update/query/barrier entries go to the FSM goroutine; noop
entries do nothing. -/
def applyEntry (r : Ldr) (ne : entry) : Ldr :=
  match ne.typ with
  | .config =>
    let r := { r with configs := { r.configs with Committed := r.configs.Latest } }
    if ¬r.configs.Latest.isVoter r.id ∧ r.state = .Leader then
      { r with state := .Follower, leader := none }
    else r
  | .update => { r with fsmSent := r.fsmSent ++ [ne] }
  | .read => { r with fsmSent := r.fsmSent ++ [ne] }
  | .barrier => { r with fsmSent := r.fsmSent ++ [ne] }
  | .nop => r

/-- The leading loop of the leader's `applyCommitted`: pop queued
query/barrier entries whose (pseudo-)index equals `lastApplied + 1`
and hand them to the FSM.  Returns the popped prefix and the remaining
queue; `la` is `lastApplied`, constant throughout the loop. -/
def drainLoop (la : Nat) : List entry → List entry × List entry
  | [] => ([], [])
  | ne :: rest =>
    if ne.index = la + 1 ∧ (ne.typ = .read ∨ ne.typ = .barrier) then
      let p := drainLoop la rest
      (ne :: p.1, p.2)
    else ([], ne :: rest)

/-- State form of `drainLoop`. -/
def drainReads (l : Ldr) : Ldr :=
  let p := drainLoop l.lastApplied l.newEntries
  { l with newEntries := p.2, fsmSent := l.fsmSent ++ p.1 }

/-- The `lastApplied+1` entry selection of `applyCommitted`: take the
queue front when its index matches, otherwise read the entry from
storage.  Returns the entry and the remaining queue. -/
def takeFront (la : Nat) (st : storageS) : List entry → entry × List entry
  | ne :: rest =>
    if ne.index = la + 1 then (ne, rest) else (st.getEntry (la + 1), ne :: rest)
  | [] => (st.getEntry (la + 1), [])

theorem applyEntry_lastApplied (r : Ldr) (ne : entry) :
    (applyEntry r ne).lastApplied = r.lastApplied := by
  cases h : ne.typ <;> simp only [applyEntry, h] <;> (try split) <;> rfl

theorem applyEntry_commitIndex (r : Ldr) (ne : entry) :
    (applyEntry r ne).commitIndex = r.commitIndex := by
  cases h : ne.typ <;> simp only [applyEntry, h] <;> (try split) <;> rfl

theorem applyEntry_newEntries (r : Ldr) (ne : entry) :
    (applyEntry r ne).newEntries = r.newEntries := by
  cases h : ne.typ <;> simp only [applyEntry, h] <;> (try split) <;> rfl

theorem applyEntry_storage (r : Ldr) (ne : entry) :
    (applyEntry r ne).storage = r.storage := by
  cases h : ne.typ <;> simp only [applyEntry, h] <;> (try split) <;> rfl

theorem applyEntry_lastLogIndex (r : Ldr) (ne : entry) :
    (applyEntry r ne).lastLogIndex = r.lastLogIndex := by
  cases h : ne.typ <;> simp only [applyEntry, h] <;> (try split) <;> rfl

theorem applyEntry_lastLogTerm (r : Ldr) (ne : entry) :
    (applyEntry r ne).lastLogTerm = r.lastLogTerm := by
  cases h : ne.typ <;> simp only [applyEntry, h] <;> (try split) <;> rfl

theorem applyEntry_applied (r : Ldr) (ne : entry) :
    (applyEntry r ne).applied = r.applied := by
  cases h : ne.typ <;> simp only [applyEntry, h] <;> (try split) <;> rfl

theorem applyEntry_id (r : Ldr) (ne : entry) :
    (applyEntry r ne).id = r.id := by
  cases h : ne.typ <;> simp only [applyEntry, h] <;> (try split) <;> rfl

theorem applyEntry_flrs (r : Ldr) (ne : entry) :
    (applyEntry r ne).flrs = r.flrs := by
  cases h : ne.typ <;> simp only [applyEntry, h] <;> (try split) <;> rfl

theorem applyEntry_Latest (r : Ldr) (ne : entry) :
    (applyEntry r ne).configs.Latest = r.configs.Latest := by
  cases h : ne.typ <;> simp only [applyEntry, h] <;> (try split) <;> rfl

theorem applyEntry_fsmSent (r : Ldr) (ne : entry) :
    (applyEntry r ne).fsmSent =
      r.fsmSent ++
        (if ne.typ = .update ∨ ne.typ = .read ∨ ne.typ = .barrier then [ne]
         else []) := by
  unfold applyEntry
  rcases h : ne.typ <;> simp [h]
  split <;> rfl

/-- `applyCommitted` of the leader (`src/unnamed/part_001`): drain
leading query/barrier entries, then, while `lastApplied < commitIndex`,
apply the `lastApplied+1` entry (from the queue when queued, from
storage otherwise) and advance `lastApplied`.  The entry applied at
each step is recorded in the `applied` ghost trace. -/
def applyCommitted (l : Ldr) : Ldr :=
  let l1 := drainReads l
  if h : l1.commitIndex < l1.lastApplied + 1 then l1
  else
    let p := takeFront l1.lastApplied l1.storage l1.newEntries
    let l2 := applyEntry { l1 with newEntries := p.2 } p.1
    applyCommitted
      { l2 with lastApplied := l2.lastApplied + 1, applied := l2.applied ++ [p.1] }
termination_by l.commitIndex + 1 - l.lastApplied
decreasing_by
  unfold_let l2 p l1 at h ⊢
  simp only [applyEntry_commitIndex, applyEntry_lastApplied, drainReads] at h ⊢
  omega

theorem drainLoop_append (la : Nat) (q : List entry) :
    (drainLoop la q).1 ++ (drainLoop la q).2 = q := by
  induction q with
  | nil => rfl
  | cons ne rest ih =>
    by_cases h : ne.index = la + 1 ∧ (ne.typ = .read ∨ ne.typ = .barrier)
    · simp [drainLoop, h, ih]
    · simp [drainLoop, h]

theorem drainLoop_fst_prop (la : Nat) (q : List entry) :
    ∀ e ∈ (drainLoop la q).1,
      e.index = la + 1 ∧ (e.typ = .read ∨ e.typ = .barrier) := by
  induction q with
  | nil => simp [drainLoop]
  | cons ne rest ih =>
    by_cases h : ne.index = la + 1 ∧ (ne.typ = .read ∨ ne.typ = .barrier)
    · simp only [drainLoop, if_pos h]
      intro e he
      rcases List.mem_cons.mp he with rfl | he
      · exact h
      · exact ih e he
    · simp [drainLoop, h]

theorem drainLoop_snd_head (la : Nat) (q : List entry) (ne : entry)
    (rest : List entry) (h : (drainLoop la q).2 = ne :: rest) :
    ¬(ne.index = la + 1 ∧ (ne.typ = .read ∨ ne.typ = .barrier)) := by
  induction q with
  | nil => simp [drainLoop] at h
  | cons e0 rest0 ih =>
    by_cases h0 : e0.index = la + 1 ∧ (e0.typ = .read ∨ e0.typ = .barrier)
    · simp only [drainLoop, if_pos h0] at h
      exact ih h
    · simp only [drainLoop, if_neg h0] at h
      rcases h with ⟨rfl, _⟩
      exact h0

theorem drainReads_commitIndex (l : Ldr) :
    (drainReads l).commitIndex = l.commitIndex := rfl

theorem drainReads_lastApplied (l : Ldr) :
    (drainReads l).lastApplied = l.lastApplied := rfl

theorem drainReads_storage (l : Ldr) :
    (drainReads l).storage = l.storage := rfl

theorem drainReads_newEntries (l : Ldr) :
    (drainReads l).newEntries = (drainLoop l.lastApplied l.newEntries).2 := rfl

theorem drainReads_fsmSent (l : Ldr) :
    (drainReads l).fsmSent =
      l.fsmSent ++ (drainLoop l.lastApplied l.newEntries).1 := rfl

theorem drainReads_applied (l : Ldr) :
    (drainReads l).applied = l.applied := rfl

theorem takeFront_fst_index (la : Nat) (st : storageS) (q : List entry) :
    (takeFront la st q).1.index = la + 1 := by
  cases q with
  | nil => simp [takeFront, storageS.getEntry_index]
  | cons ne rest =>
    by_cases h : ne.index = la + 1
    · simp [takeFront, h]
    · simp [takeFront, h, storageS.getEntry_index]

/-- One body iteration of `applyCommitted` past the drain and the
commit-gap check. -/
def applyStep (l : Ldr) : Ldr :=
  let l1 := drainReads l
  let p := takeFront l1.lastApplied l1.storage l1.newEntries
  let l2 := applyEntry { l1 with newEntries := p.2 } p.1
  { l2 with lastApplied := l2.lastApplied + 1, applied := l2.applied ++ [p.1] }

theorem applyCommitted_unfold (l : Ldr) :
    applyCommitted l =
      if (drainReads l).commitIndex < (drainReads l).lastApplied + 1 then
        drainReads l
      else applyCommitted (applyStep l) := by
  rw [applyCommitted.eq_def]
  by_cases h : (drainReads l).commitIndex < (drainReads l).lastApplied + 1 <;>
    simp [h, applyStep]

theorem applyEntry_startIndex (r : Ldr) (ne : entry) :
    (applyEntry r ne).startIndex = r.startIndex := by
  cases h : ne.typ <;> simp only [applyEntry, h] <;> (try split) <;> rfl

theorem takeFront_cases (la : Nat) (st : storageS) (q : List entry) :
    (takeFront la st q).2 = q ∨
      q = (takeFront la st q).1 :: (takeFront la st q).2 := by
  cases q with
  | nil => exact Or.inl rfl
  | cons ne rest =>
    by_cases h : ne.index = la + 1
    · exact Or.inr (by simp [takeFront, h])
    · exact Or.inl (by simp [takeFront, h])

theorem applyStep_commitIndex (l : Ldr) :
    (applyStep l).commitIndex = l.commitIndex := by
  simp [applyStep, drainReads, applyEntry_commitIndex]

theorem applyStep_lastApplied (l : Ldr) :
    (applyStep l).lastApplied = l.lastApplied + 1 := by
  simp [applyStep, drainReads, applyEntry_lastApplied]

theorem applyStep_storage (l : Ldr) :
    (applyStep l).storage = l.storage := by
  simp [applyStep, drainReads, applyEntry_storage]

theorem applyStep_lastLogIndex (l : Ldr) :
    (applyStep l).lastLogIndex = l.lastLogIndex := by
  simp [applyStep, drainReads, applyEntry_lastLogIndex]

theorem applyStep_lastLogTerm (l : Ldr) :
    (applyStep l).lastLogTerm = l.lastLogTerm := by
  simp [applyStep, drainReads, applyEntry_lastLogTerm]

theorem applyStep_flrs (l : Ldr) :
    (applyStep l).flrs = l.flrs := by
  simp [applyStep, drainReads, applyEntry_flrs]

theorem applyStep_id (l : Ldr) :
    (applyStep l).id = l.id := by
  simp [applyStep, drainReads, applyEntry_id]

theorem applyStep_Latest (l : Ldr) :
    (applyStep l).configs.Latest = l.configs.Latest := by
  simp [applyStep, drainReads, applyEntry_Latest]

theorem applyStep_startIndex (l : Ldr) :
    (applyStep l).startIndex = l.startIndex := by
  simp [applyStep, drainReads, applyEntry_startIndex]

theorem applyStep_newEntries (l : Ldr) :
    (applyStep l).newEntries =
      (takeFront l.lastApplied l.storage
        (drainLoop l.lastApplied l.newEntries).2).2 := by
  simp [applyStep, drainReads, applyEntry_newEntries]

theorem applyStep_applied (l : Ldr) :
    (applyStep l).applied =
      l.applied ++
        [(takeFront l.lastApplied l.storage
            (drainLoop l.lastApplied l.newEntries).2).1] := by
  simp [applyStep, drainReads, applyEntry_applied]

theorem applyStep_fsmSent (l : Ldr) :
    (applyStep l).fsmSent =
      (l.fsmSent ++ (drainLoop l.lastApplied l.newEntries).1) ++
        (if (takeFront l.lastApplied l.storage
              (drainLoop l.lastApplied l.newEntries).2).1.typ = .update ∨
            (takeFront l.lastApplied l.storage
              (drainLoop l.lastApplied l.newEntries).2).1.typ = .read ∨
            (takeFront l.lastApplied l.storage
              (drainLoop l.lastApplied l.newEntries).2).1.typ = .barrier then
          [(takeFront l.lastApplied l.storage
              (drainLoop l.lastApplied l.newEntries).2).1]
        else []) := by
  simp [applyStep, drainReads, applyEntry_fsmSent]

theorem sorted_le_of_const (c : Nat) (A : List Nat) (h : ∀ a ∈ A, a = c) :
    A.Sorted (fun a b => a ≤ b) := by
  induction A with
  | nil => exact List.sorted_nil
  | cons a as ih =>
    refine List.sorted_cons.mpr ⟨fun b hb => ?_, ih fun b hb => h b (by simp [hb])⟩
    rw [h a (by simp), h b (by simp [hb])]

theorem sorted_le_append_const (c : Nat) (A B : List Nat)
    (hA : ∀ a ∈ A, a = c) (hB : B.Sorted (fun a b => a ≤ b))
    (hcB : ∀ b ∈ B, c ≤ b) : (A ++ B).Sorted (fun a b => a ≤ b) := by
  rw [List.Sorted, List.pairwise_append]
  exact ⟨sorted_le_of_const c A hA, hB,
    fun a ha b hb => (hA a ha) ▸ hcB b hb⟩

theorem applyStep_fsmSent_bound (l : Ldr) :
    ∃ c, (applyStep l).fsmSent = l.fsmSent ++ c ∧
      (∀ e ∈ c, e.index = l.lastApplied + 1) ∧
      ∀ x ∈ (drainLoop l.lastApplied l.newEntries).1, x ∈ c := by
  rw [applyStep_fsmSent]
  refine ⟨_, List.append_assoc _ _ _, ?_, ?_⟩
  · intro e he
    rcases List.mem_append.mp he with he | he
    · exact (drainLoop_fst_prop _ _ e he).1
    · split at he
      · rw [List.mem_singleton.mp he]
        exact takeFront_fst_index _ _ _
      · simp at he
  · intro x hx
    exact List.mem_append.mpr (Or.inl hx)

theorem applyCommitted_main (l : Ldr) :
    (applyCommitted l).commitIndex = l.commitIndex ∧
    (applyCommitted l).storage = l.storage ∧
    (applyCommitted l).lastLogIndex = l.lastLogIndex ∧
    (applyCommitted l).lastLogTerm = l.lastLogTerm ∧
    (applyCommitted l).flrs = l.flrs ∧
    (applyCommitted l).id = l.id ∧
    (applyCommitted l).configs.Latest = l.configs.Latest ∧
    (applyCommitted l).startIndex = l.startIndex ∧
    (applyCommitted l).lastApplied = max l.lastApplied l.commitIndex ∧
    (∃ d, (applyCommitted l).applied = l.applied ++ d ∧
      d.map (fun e => e.index) =
        List.range' (l.lastApplied + 1) (l.commitIndex - l.lastApplied)) ∧
    (∃ t, (applyCommitted l).fsmSent = l.fsmSent ++ t ∧
      (t.map (fun e => e.index)).Sorted (fun a b => a ≤ b) ∧
      ∀ e ∈ t, l.lastApplied + 1 ≤ e.index) ∧
    (∀ x ∈ l.newEntries,
      x ∈ (applyCommitted l).newEntries ∨ x ∈ (applyCommitted l).fsmSent ∨
        x ∈ (applyCommitted l).applied) := by
  generalize hn : l.commitIndex + 1 - l.lastApplied = n
  revert l
  induction n using Nat.strong_induction_on with
  | _ n ih =>
  intro l hn
  rw [applyCommitted_unfold]
  by_cases hgate : (drainReads l).commitIndex < (drainReads l).lastApplied + 1
  · rw [if_pos hgate]
    rw [drainReads_commitIndex, drainReads_lastApplied] at hgate
    refine ⟨rfl, rfl, rfl, rfl, rfl, rfl, rfl, rfl, ?_, ?_, ?_, ?_⟩
    · rw [drainReads_lastApplied]
      omega
    · refine ⟨[], by simp [drainReads_applied], ?_⟩
      have h0 : l.commitIndex - l.lastApplied = 0 := by omega
      simp [h0]
    · refine ⟨(drainLoop l.lastApplied l.newEntries).1, drainReads_fsmSent l,
        ?_, ?_⟩
      · apply sorted_le_of_const (l.lastApplied + 1)
        intro a ha
        obtain ⟨e, he, rfl⟩ := List.mem_map.mp ha
        exact (drainLoop_fst_prop _ _ e he).1
      · intro e he
        rw [(drainLoop_fst_prop _ _ e he).1]
    · intro x hx
      rw [← drainLoop_append l.lastApplied l.newEntries] at hx
      rcases List.mem_append.mp hx with hx | hx
      · right
        left
        rw [drainReads_fsmSent]
        exact List.mem_append.mpr (Or.inr hx)
      · left
        rw [drainReads_newEntries]
        exact hx
  · rw [if_neg hgate]
    rw [drainReads_commitIndex, drainReads_lastApplied] at hgate
    have hlc : l.lastApplied + 1 ≤ l.commitIndex := by omega
    have hm : (applyStep l).commitIndex + 1 - (applyStep l).lastApplied < n := by
      rw [applyStep_commitIndex, applyStep_lastApplied]
      omega
    obtain ⟨ha, hb, hc, hd, hfl, hid, hlat, hsi, hla, hap, hfs, hmem⟩ :=
      ih _ hm (applyStep l) rfl
    refine ⟨?_, ?_, ?_, ?_, ?_, ?_, ?_, ?_, ?_, ?_, ?_, ?_⟩
    · rw [ha, applyStep_commitIndex]
    · rw [hb, applyStep_storage]
    · rw [hc, applyStep_lastLogIndex]
    · rw [hd, applyStep_lastLogTerm]
    · rw [hfl, applyStep_flrs]
    · rw [hid, applyStep_id]
    · rw [hlat, applyStep_Latest]
    · rw [hsi, applyStep_startIndex]
    · rw [hla, applyStep_lastApplied, applyStep_commitIndex]
      omega
    · obtain ⟨d, hd1, hd2⟩ := hap
      refine ⟨(takeFront l.lastApplied l.storage
          (drainLoop l.lastApplied l.newEntries).2).1 :: d, ?_, ?_⟩
      · rw [hd1, applyStep_applied]
        simp
      · rw [List.map_cons, takeFront_fst_index, hd2, applyStep_lastApplied,
          applyStep_commitIndex]
        have h1 : l.commitIndex - l.lastApplied =
            (l.commitIndex - (l.lastApplied + 1)) + 1 := by omega
        rw [h1, List.range'_succ]
    · obtain ⟨c, hc1, hc2, _⟩ := applyStep_fsmSent_bound l
      obtain ⟨t, ht1, ht2, ht3⟩ := hfs
      refine ⟨c ++ t, ?_, ?_, ?_⟩
      · rw [ht1, hc1, List.append_assoc]
      · rw [List.map_append]
        apply sorted_le_append_const (l.lastApplied + 1)
        · intro a hax
          obtain ⟨e, he0, rfl⟩ := List.mem_map.mp hax
          exact hc2 e he0
        · exact ht2
        · intro b hb
          obtain ⟨e, he0, rfl⟩ := List.mem_map.mp hb
          have hb2 := ht3 e he0
          rw [applyStep_lastApplied] at hb2
          omega
      · intro e he0
        rcases List.mem_append.mp he0 with h | h
        · rw [hc2 e h]
        · have hb2 := ht3 e h
          rw [applyStep_lastApplied] at hb2
          omega
    · intro x hx
      rw [← drainLoop_append l.lastApplied l.newEntries] at hx
      rcases List.mem_append.mp hx with hx | hx
      · obtain ⟨c, hc1, _, hc3⟩ := applyStep_fsmSent_bound l
        obtain ⟨t, ht1, _, _⟩ := hfs
        right
        left
        rw [ht1, hc1]
        exact List.mem_append.mpr (Or.inl (List.mem_append.mpr (Or.inr (hc3 x hx))))
      · rcases takeFront_cases l.lastApplied l.storage
          ((drainLoop l.lastApplied l.newEntries).2) with hcase | hcase
        · have hxx : x ∈ (applyStep l).newEntries := by
            rw [applyStep_newEntries, hcase]
            exact hx
          exact hmem x hxx
        · rw [hcase] at hx
          rcases List.mem_cons.mp hx with rfl | hx2
          · right
            right
            obtain ⟨d, hd1, _⟩ := hap
            rw [hd1, applyStep_applied]
            simp
          · have hxx : x ∈ (applyStep l).newEntries := by
              rw [applyStep_newEntries]
              exact hx2
            exact hmem x hxx

theorem setCommitIndex_commitIndex (r : Ldr) (i : Nat) :
    (setCommitIndex r i).commitIndex = i := by
  simp only [setCommitIndex]
  split <;> (try split) <;> rfl

theorem setCommitIndex_Latest (r : Ldr) (i : Nat) :
    (setCommitIndex r i).configs.Latest = r.configs.Latest := by
  simp only [setCommitIndex]
  split <;> (try split) <;> rfl

theorem setCommitIndex_id (r : Ldr) (i : Nat) :
    (setCommitIndex r i).id = r.id := by
  simp only [setCommitIndex]
  split <;> (try split) <;> rfl

theorem setCommitIndex_flrs (r : Ldr) (i : Nat) :
    (setCommitIndex r i).flrs = r.flrs := by
  simp only [setCommitIndex]
  split <;> (try split) <;> rfl

theorem setCommitIndex_lastLogIndex (r : Ldr) (i : Nat) :
    (setCommitIndex r i).lastLogIndex = r.lastLogIndex := by
  simp only [setCommitIndex]
  split <;> (try split) <;> rfl

theorem setCommitIndex_startIndex (r : Ldr) (i : Nat) :
    (setCommitIndex r i).startIndex = r.startIndex := by
  simp only [setCommitIndex]
  split <;> (try split) <;> rfl

/-- `ldrShip.onMajorityCommit`: if `majorityMatchIndex > commitIndex`
and `majorityMatchIndex ≥ startIndex` (the latter standing in for
"`log[N].term == currentTerm`"), commit and apply.  The code then calls
`notifyFlr(false)`, whose only state effect is to re-run
`onMajorityCommit`; that re-run is a no-op because the gate just
closed (`onMajorityCommit_idem` below), so it is omitted here. -/
def onMajorityCommit (l : Ldr) : Ldr :=
  if l.commitIndex < majorityMatchIndex l ∧ l.startIndex ≤ majorityMatchIndex l
  then applyCommitted (setCommitIndex l (majorityMatchIndex l))
  else l

/-- `ldrShip.notifyFlr`: post a leader update to every replication
worker (no local state effect) and re-check the majority commit when
the leader is a voter. -/
def notifyFlr (l : Ldr) (_includeConfig : Bool) : Ldr :=
  if l.voter then onMajorityCommit l else l

theorem majorityMatchIndex_congr (l l' : Ldr)
    (h1 : l'.configs.Latest = l.configs.Latest) (h2 : l'.id = l.id)
    (h3 : l'.lastLogIndex = l.lastLogIndex) (h4 : l'.flrs = l.flrs) :
    majorityMatchIndex l' = majorityMatchIndex l := by
  unfold majorityMatchIndex latestVoters voterMatch flrMatchIndex
  rw [h1, h2, h3, h4]

theorem onMajorityCommit_commitIndex_eq (l : Ldr) :
    (onMajorityCommit l).commitIndex =
      if l.commitIndex < majorityMatchIndex l ∧
          l.startIndex ≤ majorityMatchIndex l then
        majorityMatchIndex l
      else l.commitIndex := by
  unfold onMajorityCommit
  split
  · rw [(applyCommitted_main _).1, setCommitIndex_commitIndex]
  · rfl

theorem onMajorityCommit_idem (l : Ldr) :
    onMajorityCommit (onMajorityCommit l) = onMajorityCommit l := by
  by_cases hg : l.commitIndex < majorityMatchIndex l ∧
      l.startIndex ≤ majorityMatchIndex l
  · have hmm : majorityMatchIndex (onMajorityCommit l) = majorityMatchIndex l := by
      apply majorityMatchIndex_congr
      · unfold onMajorityCommit
        rw [if_pos hg, (applyCommitted_main _).2.2.2.2.2.2.1, setCommitIndex_Latest]
      · unfold onMajorityCommit
        rw [if_pos hg, (applyCommitted_main _).2.2.2.2.2.1, setCommitIndex_id]
      · unfold onMajorityCommit
        rw [if_pos hg, (applyCommitted_main _).2.2.1, setCommitIndex_lastLogIndex]
      · unfold onMajorityCommit
        rw [if_pos hg, (applyCommitted_main _).2.2.2.2.1, setCommitIndex_flrs]
    have hci : (onMajorityCommit l).commitIndex = majorityMatchIndex l := by
      rw [onMajorityCommit_commitIndex_eq, if_pos hg]
    have hstop : ∀ x : Ldr,
        ¬(x.commitIndex < majorityMatchIndex x ∧
            x.startIndex ≤ majorityMatchIndex x) →
          onMajorityCommit x = x := by
      intro x hx
      unfold onMajorityCommit
      rw [if_neg hx]
    apply hstop
    rw [hmm, hci]
    simp
  · have h1 : onMajorityCommit l = l := by
      unfold onMajorityCommit
      rw [if_neg hg]
    rw [h1]
    exact h1

/-- C1: the commit-advancement step sets `commitIndex` to
`N = majorityMatchIndex` exactly when `N > commitIndex` and
`N ≥ startIndex`; otherwise `commitIndex` is unchanged, so a changed
`commitIndex` is always at or above the leader's own term's first
index (`startIndex`) and strictly above the old value. -/
theorem onMajorityCommit_gate (l : Ldr) :
    ((l.commitIndex < majorityMatchIndex l ∧
        l.startIndex ≤ majorityMatchIndex l) →
      (onMajorityCommit l).commitIndex = majorityMatchIndex l) ∧
    (¬(l.commitIndex < majorityMatchIndex l ∧
        l.startIndex ≤ majorityMatchIndex l) →
      (onMajorityCommit l).commitIndex = l.commitIndex) ∧
    ((onMajorityCommit l).commitIndex ≠ l.commitIndex →
      l.startIndex ≤ (onMajorityCommit l).commitIndex ∧
        l.commitIndex < (onMajorityCommit l).commitIndex) := by
  refine ⟨fun h => ?_, fun h => ?_, fun h => ?_⟩
  · rw [onMajorityCommit_commitIndex_eq, if_pos h]
  · rw [onMajorityCommit_commitIndex_eq, if_neg h]
  · rw [onMajorityCommit_commitIndex_eq] at h ⊢
    by_cases hg : l.commitIndex < majorityMatchIndex l ∧
        l.startIndex ≤ majorityMatchIndex l
    · rw [if_pos hg]
      exact ⟨hg.2, hg.1⟩
    · rw [if_neg hg] at h
      exact absurd rfl h

theorem onMajorityCommit_gate_witness :
    (onMajorityCommit
        ⟨"a", 1, 2, 1, 0, 0, 1, .Leader, some "a", true, false,
          ⟨⟨[("a", ⟨"a", "h:1", true, false⟩)], 1, 1⟩,
            ⟨[("a", ⟨"a", "h:1", true, false⟩)], 1, 1⟩⟩,
          [], ⟨0, 0, []⟩, [], [], []⟩).commitIndex =
      majorityMatchIndex
        ⟨"a", 1, 2, 1, 0, 0, 1, .Leader, some "a", true, false,
          ⟨⟨[("a", ⟨"a", "h:1", true, false⟩)], 1, 1⟩,
            ⟨[("a", ⟨"a", "h:1", true, false⟩)], 1, 1⟩⟩,
          [], ⟨0, 0, []⟩, [], [], []⟩ :=
  (onMajorityCommit_gate _).1 (by decide)

/-- `Raft.changeConfig`: the committed config becomes the previous
latest, and the latest becomes the new config (`setLatest`). -/
def raftChangeConfig (r : Ldr) (newC : ConfigM) : Ldr :=
  { r with configs := { Committed := r.configs.Latest, Latest := newC } }

/-- `ldrShip.storeEntry`: stamp the entry with `lastLogIndex+1` and the
current term and enqueue it.  Query/barrier entries are not persisted:
the apply loop is run and the call returns.  During leadership
transfer, log entries are refused (the queued entry is removed again).
Otherwise the entry is appended to storage — the storage append is
modelled as always succeeding; its error path (step down, remember
`appendErr`) is I/O-failure handling outside this model — and
`lastLogIndex`/`lastLogTerm` advance (spelled out in
`leaderState.storeNewEntry` of `src/leader.go`), a config entry
additionally installs the decoded config as `Latest` and refreshes the
leader's own voter flag, and the replication workers are notified. -/
def storeEntry (l0 : Ldr) (ne0 : entry) : Ldr × Option String :=
  let ne := { ne0 with index := l0.lastLogIndex + 1, term := l0.term }
  let l := { l0 with newEntries := l0.newEntries ++ [ne] }
  if ne.typ = .read ∨ ne.typ = .barrier then
    (applyCommitted l, none)
  else if l0.transferInProgress then
    ({ l with newEntries := l0.newEntries }, some "transferLeadership")
  else
    let l := { l with
      storage := l.storage.append ne
      lastLogIndex := ne.index
      lastLogTerm := ne.term }
    let l :=
      if ne.typ = .config then
        let c0 := ne.cfg.getD ⟨[], 0, 0⟩
        let c := { c0 with Index := ne.index, Term := ne.term }
        raftChangeConfig { l with voter := c.isVoter l.id } c
      else l
    (notifyFlr l (ne.typ == .config), none)

/-- C3: storing a query (`entryRead`) or barrier entry leaves the
durable log untouched — no storage append, `lastLogIndex` and
`lastLogTerm` keep their values — and the entry, stamped with index
`lastLogIndex+1`, is queued in `newEntries` unless the apply loop
already serviced it (handed it to the FSM or applied it); only noop,
command (`entryUpdate`) and config entries can change the stored
log. -/
theorem storeEntry_nonlog (l : Ldr) (ne0 : entry) :
    ((ne0.typ = .read ∨ ne0.typ = .barrier) →
      ((storeEntry l ne0).1.storage = l.storage ∧
        (storeEntry l ne0).1.lastLogIndex = l.lastLogIndex ∧
        (storeEntry l ne0).1.lastLogTerm = l.lastLogTerm ∧
        (storeEntry l ne0).2 = none ∧
        ({ ne0 with index := l.lastLogIndex + 1, term := l.term } ∈
            (storeEntry l ne0).1.newEntries ∨
          { ne0 with index := l.lastLogIndex + 1, term := l.term } ∈
            (storeEntry l ne0).1.fsmSent ∨
          { ne0 with index := l.lastLogIndex + 1, term := l.term } ∈
            (storeEntry l ne0).1.applied))) ∧
    ((storeEntry l ne0).1.storage.log ≠ l.storage.log →
      (ne0.typ = .nop ∨ ne0.typ = .update ∨ ne0.typ = .config)) := by
  constructor
  · intro h
    have hne : ({ ne0 with index := l.lastLogIndex + 1, term := l.term } :
        entry).typ = .read ∨
        ({ ne0 with index := l.lastLogIndex + 1, term := l.term } :
          entry).typ = .barrier := by
      simpa using h
    have hs : storeEntry l ne0 =
        (applyCommitted
          { l with newEntries := l.newEntries ++
              [{ ne0 with index := l.lastLogIndex + 1, term := l.term }] },
          none) := by
      unfold storeEntry
      rw [if_pos hne]
    rw [hs]
    obtain ⟨_, hb, hc, hd, _, _, _, _, _, _, _, hmem⟩ :=
      applyCommitted_main
        { l with newEntries := l.newEntries ++
            [{ ne0 with index := l.lastLogIndex + 1, term := l.term }] }
    refine ⟨hb, hc, hd, rfl, ?_⟩
    exact hmem _ (List.mem_append.mpr (Or.inr (List.mem_singleton.mpr rfl)))
  · intro hlog
    rcases h : ne0.typ with _ | _ | _ | _ | _
    · exact Or.inl rfl
    · exact Or.inr (Or.inl rfl)
    · exfalso
      apply hlog
      have hne : ({ ne0 with index := l.lastLogIndex + 1, term := l.term } :
          entry).typ = .read ∨
          ({ ne0 with index := l.lastLogIndex + 1, term := l.term } :
            entry).typ = .barrier := by simp [h]
      have hs : storeEntry l ne0 =
          (applyCommitted
            { l with newEntries := l.newEntries ++
                [{ ne0 with index := l.lastLogIndex + 1, term := l.term }] },
            none) := by
        unfold storeEntry
        rw [if_pos hne]
      rw [hs, (applyCommitted_main _).2.1]
    · exfalso
      apply hlog
      have hne : ({ ne0 with index := l.lastLogIndex + 1, term := l.term } :
          entry).typ = .read ∨
          ({ ne0 with index := l.lastLogIndex + 1, term := l.term } :
            entry).typ = .barrier := by simp [h]
      have hs : storeEntry l ne0 =
          (applyCommitted
            { l with newEntries := l.newEntries ++
                [{ ne0 with index := l.lastLogIndex + 1, term := l.term }] },
            none) := by
        unfold storeEntry
        rw [if_pos hne]
      rw [hs, (applyCommitted_main _).2.1]
    · exact Or.inr (Or.inr rfl)

theorem storeEntry_nonlog_witness :
    ((storeEntry
        ⟨"a", 1, 2, 1, 0, 0, 1, .Leader, some "a", true, false,
          ⟨⟨[("a", ⟨"a", "h:1", true, false⟩)], 1, 1⟩,
            ⟨[("a", ⟨"a", "h:1", true, false⟩)], 1, 1⟩⟩,
          [], ⟨1, 2, []⟩, [], [], []⟩
        ⟨.read, 0, 0, none⟩).1.storage =
      (⟨1, 2, []⟩ : storageS)) ∧
      (storeEntry
        ⟨"a", 1, 2, 1, 0, 0, 1, .Leader, some "a", true, false,
          ⟨⟨[("a", ⟨"a", "h:1", true, false⟩)], 1, 1⟩,
            ⟨[("a", ⟨"a", "h:1", true, false⟩)], 1, 1⟩⟩,
          [], ⟨1, 2, []⟩, [], [], []⟩
        ⟨.read, 0, 0, none⟩).2 = none :=
  ⟨((storeEntry_nonlog _ _).1 (Or.inl rfl)).1,
    ((storeEntry_nonlog _ _).1 (Or.inl rfl)).2.2.2.1⟩

/-- C7: when `lastApplied ≤ commitIndex`, the apply loop stops with
`lastApplied = commitIndex` exactly (never above, `commitIndex` itself
untouched); the log entries it applies are recorded in strict index
order `lastApplied+1, …, commitIndex` with `lastApplied` incremented
once per entry; and all entries handed to the FSM — the drained
query/barrier entries (released only at index `lastApplied+1`) and the
applied command entries — leave in non-decreasing index order at
indices above the starting `lastApplied`. -/
theorem applyCommitted_spec (l : Ldr) (h : l.lastApplied ≤ l.commitIndex) :
    (applyCommitted l).commitIndex = l.commitIndex ∧
    (applyCommitted l).lastApplied = l.commitIndex ∧
    (∃ d, (applyCommitted l).applied = l.applied ++ d ∧
      d.map (fun e => e.index) =
        List.range' (l.lastApplied + 1) (l.commitIndex - l.lastApplied)) ∧
    (∃ t, (applyCommitted l).fsmSent = l.fsmSent ++ t ∧
      (t.map (fun e => e.index)).Sorted (fun a b => a ≤ b) ∧
      ∀ e ∈ t, l.lastApplied + 1 ≤ e.index) := by
  obtain ⟨h1, _, _, _, _, _, _, _, h9, h10, h11, _⟩ := applyCommitted_main l
  refine ⟨h1, ?_, h10, h11⟩
  rw [h9]
  omega

theorem applyCommitted_spec_witness :
    (0 : Nat) ≤ 2 ∧
      (applyCommitted
          ⟨"a", 1, 2, 1, 2, 0, 1, .Leader, some "a", true, false,
            ⟨⟨[("a", ⟨"a", "h:1", true, false⟩)], 1, 1⟩,
              ⟨[("a", ⟨"a", "h:1", true, false⟩)], 1, 1⟩⟩,
            [], ⟨1, 2, [⟨.nop, 1, 1, none⟩, ⟨.update, 2, 1, none⟩]⟩,
            [], [], []⟩).lastApplied = 2 :=
  ⟨by decide,
    (applyCommitted_spec
        ⟨"a", 1, 2, 1, 2, 0, 1, .Leader, some "a", true, false,
          ⟨⟨[("a", ⟨"a", "h:1", true, false⟩)], 1, 1⟩,
            ⟨[("a", ⟨"a", "h:1", true, false⟩)], 1, 1⟩⟩,
          [], ⟨1, 2, [⟨.nop, 1, 1, none⟩, ⟨.update, 2, 1, none⟩]⟩,
          [], [], []⟩ (by decide)).2.1⟩

/-- Spec side of C2: the `k`-th largest element of a multiset of
naturals (1-based; 0 when out of range). -/
def kthLargest (m : List Nat) (k : Nat) : Nat :=
  (m.insertionSort decrLe).getD (k - 1) 0

/-- Spec side of C2: the multiset the spec describes — the leader's own
`lastLogIndex` together with the `matchIndex` of each voter peer,
voters of the latest config only. -/
def commitMultiset (l : Ldr) : List Nat :=
  (latestVoters l).map (voterMatch l)

theorem countP_ge_of_front (p : Nat → Bool) :
    ∀ (S : List Nat) (q : Nat), q ≤ S.length →
      (∀ i (hi : i < S.length), i < q → p (S.get ⟨i, hi⟩) = true) →
      q ≤ S.countP p := by
  intro S
  induction S with
  | nil =>
    intro q hq _
    simpa using hq
  | cons x S ih =>
    intro q hq hp
    cases q with
    | zero => exact Nat.zero_le _
    | succ q =>
      have hx : p x = true := hp 0 (Nat.succ_pos _) (Nat.succ_pos _)
      have h2 := ih q (Nat.le_of_succ_le_succ hq) (fun i hi hiq => by
        have h3 := hp (i + 1) (Nat.succ_lt_succ hi) (Nat.succ_lt_succ hiq)
        simpa using h3)
      rw [List.countP_cons]
      simp [hx]
      omega

/-- C2: `majorityMatchIndex` is the `quorum`-th largest element of the
multiset holding the leader's own `lastLogIndex` and every voter
peer's `matchIndex` (voters of the latest config only, self included),
with `quorum = numVoters/2 + 1`; at least a quorum of voters have
matched at least the returned index; and the result is unchanged by
any modification that keeps the voters and their match indices — in
particular non-voters' match indices never influence it. -/
theorem majorityMatchIndex_spec (l l' : Ldr)
    (hvoters : 0 < l.configs.Latest.numVoters)
    (hid : l'.id = l.id) (hlli : l'.lastLogIndex = l.lastLogIndex)
    (hvs : latestVoters l' = latestVoters l)
    (hmi : ∀ n ∈ latestVoters l, flrMatchIndex l' n.ID = flrMatchIndex l n.ID) :
    majorityMatchIndex l = kthLargest (commitMultiset l) l.configs.Latest.quorum ∧
    l.configs.Latest.quorum ≤
      (latestVoters l).countP
        (fun n => majorityMatchIndex l ≤ voterMatch l n) ∧
    majorityMatchIndex l' = majorityMatchIndex l := by
  have hlen : (latestVoters l).length = l.configs.Latest.numVoters := by
    unfold latestVoters ConfigM.numVoters
    rw [List.countP_eq_length_filter]
  refine ⟨?_, ?_, ?_⟩
  · simp only [majorityMatchIndex, kthLargest, commitMultiset, ConfigM.quorum]
    rw [List.length_map, hlen]
  · have hq : l.configs.Latest.quorum =
        ((latestVoters l).map (voterMatch l)).length / 2 + 1 := by
      rw [List.length_map, hlen]
      rfl
    have hidx : l.configs.Latest.quorum - 1 <
        (((latestVoters l).map (voterMatch l)).insertionSort decrLe).length := by
      rw [(List.perm_insertionSort decrLe _).length_eq, List.length_map, hlen]
      unfold ConfigM.quorum
      omega
    have hN : majorityMatchIndex l =
        (((latestVoters l).map (voterMatch l)).insertionSort decrLe).get
          ⟨l.configs.Latest.quorum - 1, hidx⟩ := by
      simp only [majorityMatchIndex]
      rw [← hq]
      exact List.getD_eq_get _ 0 hidx
    have hsorted := List.sorted_insertionSort decrLe
      ((latestVoters l).map (voterMatch l))
    have hpre : ∀ i (hi : i <
        (((latestVoters l).map (voterMatch l)).insertionSort decrLe).length),
        i < l.configs.Latest.quorum →
        majorityMatchIndex l ≤
          (((latestVoters l).map (voterMatch l)).insertionSort decrLe).get
            ⟨i, hi⟩ := by
      intro i hi hiq
      rw [hN]
      rcases Nat.lt_or_ge i (l.configs.Latest.quorum - 1) with hlt | hge
      · exact hsorted.rel_get_of_lt hlt
      · have hieq : i = l.configs.Latest.quorum - 1 := by omega
        subst hieq
        exact le_refl _
    have hcnt : l.configs.Latest.quorum ≤
        (((latestVoters l).map (voterMatch l)).insertionSort decrLe).countP
          (fun v => majorityMatchIndex l ≤ v) := by
      apply countP_ge_of_front
      · rw [(List.perm_insertionSort decrLe _).length_eq, List.length_map, hlen]
        unfold ConfigM.quorum
        omega
      · intro i hi hiq
        exact decide_eq_true (hpre i hi hiq)
    rw [(List.perm_insertionSort decrLe _).countP_eq] at hcnt
    rw [List.countP_map] at hcnt
    exact hcnt
  · simp only [majorityMatchIndex]
    rw [hvs]
    have hmap : (latestVoters l).map (voterMatch l') =
        (latestVoters l).map (voterMatch l) := by
      apply List.map_congr_left
      intro n hn
      unfold voterMatch
      rw [hid, hlli, hmi n hn]
    rw [hmap]

theorem majorityMatchIndex_spec_witness :
    majorityMatchIndex
        ⟨"a", 1, 5, 1, 0, 0, 1, .Leader, some "a", true, false,
          ⟨⟨[("a", ⟨"a", "h:1", true, false⟩),
              ("b", ⟨"b", "h:2", false, false⟩)], 1, 1⟩,
            ⟨[("a", ⟨"a", "h:1", true, false⟩),
              ("b", ⟨"b", "h:2", false, false⟩)], 1, 1⟩⟩,
          [("b", 9)], ⟨0, 0, []⟩, [], [], []⟩ =
      majorityMatchIndex
        ⟨"a", 1, 5, 1, 0, 0, 1, .Leader, some "a", true, false,
          ⟨⟨[("a", ⟨"a", "h:1", true, false⟩),
              ("b", ⟨"b", "h:2", false, false⟩)], 1, 1⟩,
            ⟨[("a", ⟨"a", "h:1", true, false⟩),
              ("b", ⟨"b", "h:2", false, false⟩)], 1, 1⟩⟩,
          [("b", 3)], ⟨0, 0, []⟩, [], [], []⟩ :=
  (majorityMatchIndex_spec
      ⟨"a", 1, 5, 1, 0, 0, 1, .Leader, some "a", true, false,
        ⟨⟨[("a", ⟨"a", "h:1", true, false⟩),
            ("b", ⟨"b", "h:2", false, false⟩)], 1, 1⟩,
          ⟨[("a", ⟨"a", "h:1", true, false⟩),
            ("b", ⟨"b", "h:2", false, false⟩)], 1, 1⟩⟩,
        [("b", 3)], ⟨0, 0, []⟩, [], [], []⟩
      ⟨"a", 1, 5, 1, 0, 0, 1, .Leader, some "a", true, false,
        ⟨⟨[("a", ⟨"a", "h:1", true, false⟩),
            ("b", ⟨"b", "h:2", false, false⟩)], 1, 1⟩,
          ⟨[("a", ⟨"a", "h:1", true, false⟩),
            ("b", ⟨"b", "h:2", false, false⟩)], 1, 1⟩⟩,
        [("b", 9)], ⟨0, 0, []⟩, [], [], []⟩
      (by decide) (by decide) (by decide) (by decide)
      (by decide)).2.2

-- Leader lease quorum check (src/leader.go) -----------------------------

/-- A member row as seen by `leaderState.isQuorumReachable`
(`src/leader.go`): its address together with its replication worker's
`noContact` time (`none` models the zero `time.Time`, i.e. currently
reachable).  Times are integer instants as in Go's monotonic clock. -/
structure memberC4 where
  addr : String
  noContact : Option Int
  deriving DecidableEq, Repr

/-- The fields of `leaderState` that the lease check reads and
writes. -/
structure leaderStateC4 where
  addr : String
  leaseTimeout : Int
  members : List memberC4
  state : RState
  leaderID : String
  deriving DecidableEq, Repr

/-- Modelled from the spec: `quorumSize` is called by
`isQuorumReachable` but defined outside the provided sources; the
spec's glossary gives quorum as `⌊voters/2⌋ + 1`, and every member of
this version is a voter. -/
def quorumSize (ldr : leaderStateC4) : Nat :=
  ldr.members.length / 2 + 1

/-- The `reachable` counter of `leaderState.isQuorumReachable`: itself,
plus every other member whose `noContact` is zero or within
`leaseTimeout` of `now`. -/
def reachableCount (ldr : leaderStateC4) (now : Int) : Nat :=
  ldr.members.countP (fun m =>
    m.addr == ldr.addr ||
      (match m.noContact with
       | none => true
       | some t => decide (now - t < ldr.leaseTimeout)))

/-- `leaderState.isQuorumReachable`. -/
def isQuorumReachable (ldr : leaderStateC4) (now : Int) : Bool :=
  quorumSize ldr ≤ reachableCount ldr now

/-- The `case <-leaseTimer.C` arm of `leaderState.runLoop`: when the
quorum is unreachable the leader becomes a follower and clears
`leaderID`. -/
def leaseTick (ldr : leaderStateC4) (now : Int) : leaderStateC4 :=
  if isQuorumReachable ldr now then ldr
  else { ldr with state := .Follower, leaderID := "" }

theorem countP_or_split {α : Type} (l : List α) (q p : α → Bool) :
    l.countP (fun a => q a || p a) =
      l.countP q + (l.filter (fun a => !q a)).countP p := by
  induction l with
  | nil => rfl
  | cons x xs ih =>
    by_cases hx : q x = true <;> by_cases hp : p x = true <;>
      simp [List.countP_cons, List.filter_cons, hx, hp, ih] <;> omega

/-- C4: on a lease tick the reachable count is the leader itself plus
every peer whose failed-contact time is unset or within
`leaseTimeout` of now; below quorum the leader steps down to Follower
with `leaderID` cleared, at or above quorum the state is unchanged. -/
theorem leaseTick_spec (ldr : leaderStateC4) (now : Int)
    (hself : ldr.members.countP (fun m => m.addr == ldr.addr) = 1) :
    reachableCount ldr now =
      1 + (ldr.members.filter (fun m => !(m.addr == ldr.addr))).countP
        (fun m =>
          match m.noContact with
          | none => true
          | some t => decide (now - t < ldr.leaseTimeout)) ∧
    (reachableCount ldr now < quorumSize ldr →
      (leaseTick ldr now).state = .Follower ∧
        (leaseTick ldr now).leaderID = "") ∧
    (quorumSize ldr ≤ reachableCount ldr now → leaseTick ldr now = ldr) := by
  refine ⟨?_, fun h => ?_, fun h => ?_⟩
  · unfold reachableCount
    rw [countP_or_split ldr.members (fun m => m.addr == ldr.addr), hself]
  · have hq : isQuorumReachable ldr now = false := by
      unfold isQuorumReachable
      simp only [decide_eq_false_iff_not]
      omega
    simp [leaseTick, hq]
  · have hq : isQuorumReachable ldr now = true := by
      unfold isQuorumReachable
      simpa using h
    simp [leaseTick, hq]

theorem leaseTick_spec_witness :
    (leaseTick
        ⟨"a", 5, [⟨"a", none⟩, ⟨"b", some 0⟩, ⟨"c", some 0⟩], .Leader, "a"⟩
        10).state = .Follower ∧
      (leaseTick
        ⟨"a", 5, [⟨"a", none⟩, ⟨"b", some 0⟩, ⟨"c", some 0⟩], .Leader, "a"⟩
        10).leaderID = "" :=
  (leaseTick_spec
      ⟨"a", 5, [⟨"a", none⟩, ⟨"b", some 0⟩, ⟨"c", some 0⟩], .Leader, "a"⟩
      10 (by decide)).2.1 (by decide)

-- changeConfig (src/unnamed/part_001) -----------------------------------

/-- The distinct replies of `ldrShip.changeConfig`'s guard clauses. -/
inductive configChangeError where
  | configChangeInProgress
  | notCommitReady
  | configChanged
  | invalidConfig (msg : String)
  | newVotersFound
  | multipleVoterLoss
  deriving DecidableEq, Repr

/-- `ldrShip.changeConfig`: reject when a change is in flight
(`Latest.Index ≠ Committed.Index`), when the leader's own term has not
committed yet (`commitIndex < startIndex`), when the proposal is based
on a stale config, when the proposal fails validation, when it
introduces a brand-new voter, or when more than one current voter
loses its vote.  Otherwise the config entry is stored through
`storeEntry`, `Latest` is swapped to the stored config, and the
replication workers of removed nodes are stopped while missing ones
are started with `matchIndex = 0`. -/
def changeConfigTask (l : Ldr) (newConf : ConfigM) :
    Ldr × Option configChangeError :=
  if l.configs.Latest.Index ≠ l.configs.Committed.Index then
    (l, some .configChangeInProgress)
  else if l.commitIndex < l.startIndex then
    (l, some .notCommitReady)
  else if newConf.Index ≠ l.configs.Latest.Index then
    (l, some .configChanged)
  else
    match newConf.validate with
    | some e => (l, some (.invalidConfig e))
    | none =>
      if 0 < ((newConf.Nodes.map (fun p => p.2)).filter
          (fun n => n.Voter && !(l.configs.Latest.isVoter n.ID))).length then
        (l, some .newVotersFound)
      else if 1 < ((l.configs.Latest.Nodes.map (fun p => p.2)).filter
          (fun n => n.Voter && !(newConf.isVoter n.ID))).length then
        (l, some .multipleVoterLoss)
      else
        let ne : entry := ⟨.config, newConf.Index, newConf.Term, some newConf⟩
        let l2 := (storeEntry l ne).1
        let c2 := { newConf with Index := l.lastLogIndex + 1, Term := l.term }
        let l3 := raftChangeConfig l2 c2
        let kept := l3.flrs.filter (fun p => (c2.Nodes.lookup p.1).isSome)
        let l4 := { l3 with flrs := kept ++
            ((c2.Nodes.filter (fun q => (kept.lookup q.1).isNone)).map
              (fun q => (q.1, 0))) }
        (l4, none)

/-- C6: `changeConfig` reports each violated precondition as its own
error — a change in flight, an uncommitted leader term, a proposal
containing a voter that is not already a voter, more than one voter
losing its vote — and on every error reply the leader state (log and
`Latest` included) is left exactly as it was. -/
theorem changeConfig_guards (l : Ldr) (newConf : ConfigM) :
    (l.configs.Latest.Index ≠ l.configs.Committed.Index →
      changeConfigTask l newConf = (l, some .configChangeInProgress)) ∧
    (l.configs.Latest.Index = l.configs.Committed.Index →
      l.commitIndex < l.startIndex →
      changeConfigTask l newConf = (l, some .notCommitReady)) ∧
    (l.configs.Latest.Index = l.configs.Committed.Index →
      ¬l.commitIndex < l.startIndex →
      newConf.Index = l.configs.Latest.Index →
      newConf.validate = none →
      0 < ((newConf.Nodes.map (fun p => p.2)).filter
        (fun n => n.Voter && !(l.configs.Latest.isVoter n.ID))).length →
      changeConfigTask l newConf = (l, some .newVotersFound)) ∧
    (l.configs.Latest.Index = l.configs.Committed.Index →
      ¬l.commitIndex < l.startIndex →
      newConf.Index = l.configs.Latest.Index →
      newConf.validate = none →
      ((newConf.Nodes.map (fun p => p.2)).filter
        (fun n => n.Voter && !(l.configs.Latest.isVoter n.ID))) = [] →
      1 < ((l.configs.Latest.Nodes.map (fun p => p.2)).filter
        (fun n => n.Voter && !(newConf.isVoter n.ID))).length →
      changeConfigTask l newConf = (l, some .multipleVoterLoss)) ∧
    (∀ e, (changeConfigTask l newConf).2 = some e →
      (changeConfigTask l newConf).1 = l) := by
  refine ⟨fun h1 => ?_, fun h1 h2 => ?_, fun h1 h2 h3 h4 h5 => ?_,
    fun h1 h2 h3 h4 h5 h6 => ?_, fun e he => ?_⟩
  · simp [changeConfigTask, h1]
  · simp [changeConfigTask, h1, h2]
  · simp [changeConfigTask, h1, h2, h3, h4, h5]
  · simp [changeConfigTask, h1, h2, h3, h4, h5, h6]
  · have key : (changeConfigTask l newConf).1 = l ∨
        (changeConfigTask l newConf).2 = none := by
      unfold changeConfigTask
      split
      · exact Or.inl rfl
      · split
        · exact Or.inl rfl
        · split
          · exact Or.inl rfl
          · split
            · exact Or.inl rfl
            · split
              · exact Or.inl rfl
              · split
                · exact Or.inl rfl
                · exact Or.inr rfl
    rcases key with hk | hk
    · exact hk
    · rw [he] at hk
      exact absurd hk (by simp)

theorem changeConfig_guards_witness :
    changeConfigTask
        ⟨"a", 1, 2, 1, 1, 1, 1, .Leader, some "a", true, false,
          ⟨⟨[("a", ⟨"a", "h:1", true, false⟩)], 1, 1⟩,
            ⟨[("a", ⟨"a", "h:1", true, false⟩)], 2, 1⟩⟩,
          [], ⟨1, 2, []⟩, [], [], []⟩
        ⟨[("a", ⟨"a", "h:1", true, false⟩)], 2, 1⟩ =
      (⟨"a", 1, 2, 1, 1, 1, 1, .Leader, some "a", true, false,
          ⟨⟨[("a", ⟨"a", "h:1", true, false⟩)], 1, 1⟩,
            ⟨[("a", ⟨"a", "h:1", true, false⟩)], 2, 1⟩⟩,
          [], ⟨1, 2, []⟩, [], [], []⟩,
        some .configChangeInProgress) ∧
      changeConfigTask
        ⟨"a", 1, 2, 1, 1, 1, 1, .Leader, some "a", true, false,
          ⟨⟨[("a", ⟨"a", "h:1", true, false⟩),
              ("b", ⟨"b", "h:2", false, false⟩)], 1, 1⟩,
            ⟨[("a", ⟨"a", "h:1", true, false⟩),
              ("b", ⟨"b", "h:2", false, false⟩)], 1, 1⟩⟩,
          [("b", 0)], ⟨1, 2, []⟩, [], [], []⟩
        ⟨[("a", ⟨"a", "h:1", true, false⟩),
            ("b", ⟨"b", "h:2", true, false⟩)], 1, 1⟩ =
      (⟨"a", 1, 2, 1, 1, 1, 1, .Leader, some "a", true, false,
          ⟨⟨[("a", ⟨"a", "h:1", true, false⟩),
              ("b", ⟨"b", "h:2", false, false⟩)], 1, 1⟩,
            ⟨[("a", ⟨"a", "h:1", true, false⟩),
              ("b", ⟨"b", "h:2", false, false⟩)], 1, 1⟩⟩,
          [("b", 0)], ⟨1, 2, []⟩, [], [], []⟩,
        some .newVotersFound) :=
  ⟨(changeConfig_guards _ _).1 (by decide),
    (changeConfig_guards _ _).2.2.1 (by decide) (by decide) (by decide)
      (by decide) (by decide)⟩
